import Mathlib

/-!
Verification of the document indexing and retrieval core of the bit-buddy
repository (`app/rag.py` and `enhanced_buddy.py`), via a shallow embedding.

Texts are modelled as `List Char`, Python string slicing as `drop`/`take`,
machine floats as exact rationals (`ℚ`) where only structure matters and as
real numbers (`ℝ`) for the normalization arithmetic.  The Python `while`
loop of `chunk_text` is modelled with explicit fuel: a result of `none`
means the loop did not finish within the given fuel, and a statement that
the result is `none` for every fuel amount is a proof of non-termination.
-/

set_option maxHeartbeats 1000000
set_option linter.unusedVariables false

/-- Python `str.strip()`: remove whitespace from both ends of the text. -/
def pyStrip (s : List Char) : List Char :=
  ((s.dropWhile Char.isWhitespace).reverse.dropWhile Char.isWhitespace).reverse

/-- The `while i < n` loop of `chunk_text` (app/rag.py lines 64-72), with fuel.
State: `i` is the window start, `acc` the chunks collected so far.  One
iteration computes `j = min (i + chunk_chars) n`, appends the stripped slice
`text[i:j]`, sets `i = j - overlap` (in `Int`, clamped below at 0), and breaks
if the new `i` is `≥ n`.  `none` means the fuel ran out, i.e. the loop was
still running after `fuel` iterations. -/
def chunkLoop (cc ov : Nat) (text : List Char) :
    Nat → Nat → List (List Char) → Option (List (List Char))
  | 0, _, _ => none
  | fuel + 1, i, acc =>
    if i < text.length then
      let j := min (i + cc) text.length
      let acc2 := acc ++ [pyStrip ((text.drop i).take (j - i))]
      let i2 : Int := (j : Int) - (ov : Int)
      let i3 : Nat := if i2 < 0 then 0 else i2.toNat
      if text.length ≤ i3 then some acc2 else chunkLoop cc ov text fuel i3 acc2
    else
      some acc

/-- `chunk_text(text, chunk_chars, overlap)` (app/rag.py lines 60-73): run the
window loop from `i = 0` with an empty accumulator, then drop the chunks that
stripped to the empty string (`[c for c in chunks if c]`). -/
def chunkTextF (cc ov fuel : Nat) (text : List Char) : Option (List (List Char)) :=
  (chunkLoop cc ov text fuel 0 []).map (fun cs => cs.filter (fun c => c ≠ []))

/-- Sanity check: the specification's own example
`chunk("HelloWorldAB", chunk_chars=5, overlap=0) = ["Hello", "World", "AB"]`. -/
theorem chunkText_example :
    chunkTextF 5 0 9 "HelloWorldAB".toList =
      some ["Hello".toList, "World".toList, "AB".toList] := by
  decide

/-- With `overlap = 0` the loop does terminate on a short text. -/
theorem chunkText_overlap_zero_example :
    chunkTextF 1200 0 9 "hello".toList = some ["hello".toList] := by
  decide

/-- Key lemma for C3: on the two-character text `"ab"` with
`chunk_chars = 5 > overlap = 2 ≥ 1`, the loop state `i = 0` steps back to
`i = 0` (`i = min(0+5,2) - 2 = 0 < 2`), so no amount of fuel finishes the
loop: `chunk_text` does not terminate on this input. -/
theorem chunkLoop_ab_stalls (fuel : Nat) :
    ∀ acc, chunkLoop 5 2 "ab".toList fuel 0 acc = none := by
  induction fuel with
  | zero => intro acc; rfl
  | succ n ih =>
    intro acc
    have h : chunkLoop 5 2 "ab".toList (n + 1) 0 acc =
        chunkLoop 5 2 "ab".toList n 0 (acc ++ [pyStrip "ab".toList]) := by
      rfl
    rw [h]
    exact ih _

/-! ### Index build (RAG.build_index, app/rag.py lines 107-156) -/

/-- One record of `meta.jsonl`: the dict written at app/rag.py lines 122-128
(`path` is `os.path.relpath(fp, kb_dir)`; the model keys files by that
relative path throughout, so the `relpath`/`join` round trip is the
identity). -/
structure MetaEntry where
  path : String
  chunk_id : Nat
  chars : Nat
deriving DecidableEq, Repr

/-- `for idx, ch in enumerate(parts)` starting at ordinal `i0`: the metadata
entries generated for one file's chunk list (app/rag.py lines 121-128). -/
def enumMeta (p : String) : Nat → List (List Char) → List MetaEntry
  | _, [] => []
  | i0, c :: cs => ⟨p, i0, c.length⟩ :: enumMeta p (i0 + 1) cs

/-- The `for fp in files` loop of `build_index` (app/rag.py lines 116-129):
extract each file, skip it when the extracted text is falsy (`if not txt:
continue`), otherwise chunk it and append one metadata entry per chunk, in
file order.  `extract` is the per-path result of `extract_text`
(`Except.error` when extraction raises, which aborts the whole build), and
`none` means the build never finishes (extraction raised or chunking
stalled). -/
def collectChunks (cc ov fuel : Nat) (extract : String → Except Unit (List Char)) :
    List String → Option (List MetaEntry × List (List Char))
  | [] => some ([], [])
  | p :: rest =>
    match extract p with
    | Except.error _ => none
    | Except.ok txt =>
      if txt = [] then collectChunks cc ov fuel extract rest
      else
        match chunkTextF cc ov fuel txt with
        | none => none
        | some parts =>
          match collectChunks cc ov fuel extract rest with
          | none => none
          | some (ms, cs) => some (enumMeta p 0 parts ++ ms, parts ++ cs)

/-- The two on-disk artifacts owned by the index: `embeddings.npy`, modelled
as its list of rows, and `meta.jsonl`, modelled as its list of records.
`none` means the file is absent. -/
structure DiskStore (α : Type) where
  embFile : Option (List α)
  metaFile : Option (List MetaEntry)
deriving DecidableEq

/-- `RAG.build_index` (app/rag.py lines 107-156) as a function of the
enumerated file list, the extraction results, and the embedding client
`embed` (one call over the whole chunk batch, app/rag.py line 141) with the
per-row L2 normalization `normRow` (lines 145-146, a row-wise map).  The
prior store `d` is the state of the two files before the call; the source
never reads it during a rebuild.  Returns the store after the final write
paired with the returned chunk count, or `none` when the build never
completes.  Empty corpus: a zero-row matrix and an empty `meta.jsonl`
(lines 131-137), returning 0. -/
def buildIndex {α : Type} (cc ov fuel : Nat) (extract : String → Except Unit (List Char))
    (embed : List (List Char) → List α) (normRow : α → α)
    (files : List String) (d : DiskStore α) : Option (DiskStore α × Nat) :=
  match collectChunks cc ov fuel extract files with
  | none => none
  | some (meta, chunks) =>
    if chunks = [] then some (⟨some [], some []⟩, 0)
    else
      let E := (embed chunks).map normRow
      some (⟨some E, some meta⟩, meta.length)

/-- The sequence of on-disk states a reader (or a crash) can observe during
the write phase of `build_index`.  In both branches the source writes the
matrix file first (`np.save(self.emb_path, ...)`, app/rag.py line 135 resp.
149) and the metadata file second (line 136 resp. 150-152), each directly at
its final published path — there is no temporary location and no rename. -/
def buildIndexDiskStates {α : Type} (cc ov fuel : Nat)
    (extract : String → Except Unit (List Char))
    (embed : List (List Char) → List α) (normRow : α → α)
    (files : List String) (d : DiskStore α) : Option (List (DiskStore α)) :=
  match collectChunks cc ov fuel extract files with
  | none => none
  | some (meta, chunks) =>
    if chunks = [] then
      some [d, ⟨some [], d.metaFile⟩, ⟨some [], some []⟩]
    else
      let E := (embed chunks).map normRow
      some [d, ⟨some E, d.metaFile⟩, ⟨some E, some meta⟩]

theorem enumMeta_length (p : String) : ∀ (i0 : Nat) (cs : List (List Char)),
    (enumMeta p i0 cs).length = cs.length
  | _, [] => rfl
  | i0, _ :: cs => by simp [enumMeta, enumMeta_length p (i0 + 1) cs]

theorem enumMeta_getElem (p : String) :
    ∀ (cs : List (List Char)) (i0 j : Nat),
      (enumMeta p i0 cs)[j]? = cs[j]?.map (fun c => ⟨p, i0 + j, c.length⟩) := by
  intro cs
  induction cs with
  | nil => intro i0 j; simp [enumMeta]
  | cons c cs ih =>
    intro i0 j
    cases j with
    | zero => simp [enumMeta]
    | succ j =>
      have h := ih (i0 + 1) j
      simp only [enumMeta, List.getElem?_cons_succ, h]
      have harith : i0 + 1 + j = i0 + (j + 1) := by omega
      rw [harith]

/-- Structure of a completed chunk-collection pass: one metadata entry per
chunk, in lockstep, and each entry locates (by `path` and `chunk_id`) exactly
the chunk text at its position. -/
theorem collectChunks_spec (cc ov fuel : Nat) (ex : String → Except Unit (List Char)) :
    ∀ (files : List String) (meta : List MetaEntry) (chunks : List (List Char)),
      collectChunks cc ov fuel ex files = some (meta, chunks) →
      meta.length = chunks.length ∧
      ∀ (i : Nat) (m : MetaEntry), meta[i]? = some m →
        ∃ txt parts c, chunks[i]? = some c ∧ ex m.path = Except.ok txt ∧
          chunkTextF cc ov fuel txt = some parts ∧
          parts[m.chunk_id]? = some c ∧ m.chars = c.length := by
  intro files
  induction files with
  | nil =>
    intro meta chunks h
    simp only [collectChunks, Option.some.injEq, Prod.mk.injEq] at h
    obtain ⟨hm, hc⟩ := h
    subst hm; subst hc
    exact ⟨rfl, fun i m hm => by simp at hm⟩
  | cons p rest ih =>
    intro meta chunks h
    rw [collectChunks] at h
    cases hex : ex p with
    | error e => simp [hex] at h
    | ok txt =>
      simp only [hex] at h
      by_cases htxt : txt = []
      · rw [if_pos htxt] at h
        exact ih meta chunks h
      · rw [if_neg htxt] at h
        cases hct : chunkTextF cc ov fuel txt with
        | none => simp [hct] at h
        | some parts =>
          simp only [hct] at h
          cases hcc : collectChunks cc ov fuel ex rest with
          | none => simp [hcc] at h
          | some pr =>
            obtain ⟨ms, cs⟩ := pr
            simp only [hcc, Option.some.injEq, Prod.mk.injEq] at h
            obtain ⟨hm, hc⟩ := h
            subst hm; subst hc
            obtain ⟨ihlen, ihspec⟩ := ih ms cs hcc
            constructor
            · simp [enumMeta_length, ihlen]
            · intro i m hm
              by_cases hi : i < parts.length
              · rw [List.getElem?_append_left (by rw [enumMeta_length]; exact hi)] at hm
                rw [enumMeta_getElem] at hm
                cases hpi : parts[i]? with
                | none => rw [hpi] at hm; simp at hm
                | some c =>
                  rw [hpi] at hm
                  simp only [Option.map_some', Option.some.injEq] at hm
                  subst hm
                  refine ⟨txt, parts, c, ?_, hex, hct, ?_, rfl⟩
                  · rw [List.getElem?_append_left hi]; exact hpi
                  · simpa using hpi
              · push_neg at hi
                rw [List.getElem?_append_right (by rw [enumMeta_length]; exact hi)] at hm
                rw [enumMeta_length] at hm
                obtain ⟨txt2, parts2, c, hcs, hex2, hct2, hpc, hch⟩ :=
                  ihspec (i - parts.length) m hm
                refine ⟨txt2, parts2, c, ?_, hex2, hct2, hpc, hch⟩
                rw [List.getElem?_append_right hi]
                exact hcs

/-- C1: after every completed `build_index` write, the matrix and metadata
are aligned: the number of rows equals the number of metadata entries (the
returned count), row `i` is the (normalized) embedding the client produced
at position `i`, and metadata entry `i` (`path`, `chunk_id`, `chars`)
describes exactly the chunk text at position `i`, which is recovered by
re-chunking `extract(path)` at ordinal `chunk_id`.  This includes the empty
corpus, which commits a zero-row matrix and an empty metadata file.
`hembed` is the embedding-client contract: one vector per input string. -/
theorem buildIndex_alignment_C1 {α : Type} (cc ov fuel : Nat)
    (ex : String → Except Unit (List Char))
    (embed : List (List Char) → List α) (normRow : α → α)
    (files : List String) (d d1 : DiskStore α) (cnt : Nat)
    (hembed : ∀ cs, (embed cs).length = cs.length)
    (hb : buildIndex cc ov fuel ex embed normRow files d = some (d1, cnt)) :
    ∃ meta chunks rows,
      d1.metaFile = some meta ∧ d1.embFile = some rows ∧
      cnt = meta.length ∧
      rows.length = meta.length ∧
      rows = (embed chunks).map normRow ∧
      meta.length = chunks.length ∧
      ∀ (i : Nat) (m : MetaEntry), meta[i]? = some m →
        ∃ txt parts c, chunks[i]? = some c ∧ ex m.path = Except.ok txt ∧
          chunkTextF cc ov fuel txt = some parts ∧
          parts[m.chunk_id]? = some c ∧ m.chars = c.length := by
  rw [buildIndex] at hb
  cases hcc : collectChunks cc ov fuel ex files with
  | none => simp [hcc] at hb
  | some pr =>
    obtain ⟨meta0, chunks0⟩ := pr
    simp only [hcc] at hb
    obtain ⟨hlen0, hspec0⟩ := collectChunks_spec cc ov fuel ex files meta0 chunks0 hcc
    by_cases hch : chunks0 = []
    · rw [if_pos hch] at hb
      simp only [Option.some.injEq, Prod.mk.injEq] at hb
      obtain ⟨hd, hcnt⟩ := hb
      subst hd; subst hcnt
      have hemb0 : embed [] = [] := List.length_eq_zero.mp (by rw [hembed]; rfl)
      exact ⟨[], [], [], rfl, rfl, rfl, rfl, by rw [hemb0]; rfl, rfl,
        fun i m hm => by simp at hm⟩
    · rw [if_neg hch] at hb
      simp only [Option.some.injEq, Prod.mk.injEq] at hb
      obtain ⟨hd, hcnt⟩ := hb
      subst hd; subst hcnt
      refine ⟨meta0, chunks0, (embed chunks0).map normRow, rfl, rfl, rfl, ?_, rfl,
        hlen0, hspec0⟩
      rw [List.length_map, hembed, hlen0]

/-- C7: a rebuild does not read the prior on-disk index; for a fixed file
enumeration, extraction results, chunking configuration and embedding-client
outputs, a completed `build_index` writes the same matrix and metadata
contents and returns the same chunk count no matter what state the store was
in before the call — in particular, running it a second time right after the
first write reproduces the first write exactly. -/
theorem buildIndex_idempotent_C7 {α : Type} (cc ov fuel : Nat)
    (ex : String → Except Unit (List Char))
    (embed : List (List Char) → List α) (normRow : α → α)
    (files : List String) (d d1 : DiskStore α) (c1 : Nat)
    (hb : buildIndex cc ov fuel ex embed normRow files d = some (d1, c1)) :
    ∀ d2 : DiskStore α, buildIndex cc ov fuel ex embed normRow files d2 = some (d1, c1) :=
  fun _ => hb

/-- Concrete corpus for witnesses: one file whose text extracts to "hello". -/
def exW : String → Except Unit (List Char) := fun _ => Except.ok "hello".toList

/-- Concrete embedding client for witnesses: one abstract row per chunk. -/
def embedW : List (List Char) → List Nat := fun cs => cs.map List.length

/-- The store that `build_index` writes for the corpus of `exW`. -/
def storeW : DiskStore Nat := ⟨some [5], some [⟨"a.txt", 0, 5⟩]⟩

theorem embedW_length : ∀ cs, (embedW cs).length = cs.length := by
  intro cs; simp [embedW]

theorem buildW_eq :
    buildIndex 5 0 2 exW embedW id ["a.txt"] ⟨none, none⟩ = some (storeW, 1) := by
  decide

/-- Witness for C1: the alignment theorem applied to the concrete one-file
corpus, with both hypotheses discharged by evaluation. -/
theorem buildIndex_alignment_C1_witness :
    (∀ cs, (embedW cs).length = cs.length) ∧
    buildIndex 5 0 2 exW embedW id ["a.txt"] ⟨none, none⟩ = some (storeW, 1) ∧
    ∃ meta chunks rows,
      storeW.metaFile = some meta ∧ storeW.embFile = some rows ∧
      1 = meta.length ∧
      rows.length = meta.length ∧
      rows = (embedW chunks).map id ∧
      meta.length = chunks.length ∧
      ∀ (i : Nat) (m : MetaEntry), meta[i]? = some m →
        ∃ txt parts c, chunks[i]? = some c ∧ exW m.path = Except.ok txt ∧
          chunkTextF 5 0 2 txt = some parts ∧
          parts[m.chunk_id]? = some c ∧ m.chars = c.length :=
  ⟨embedW_length, buildW_eq,
    buildIndex_alignment_C1 5 0 2 exW embedW id ["a.txt"] ⟨none, none⟩ storeW 1
      embedW_length buildW_eq⟩

/-- Witness for C7: rebuilding right after a completed rebuild of the
concrete one-file corpus writes the identical store and returns the same
count. -/
theorem buildIndex_idempotent_C7_witness :
    buildIndex 5 0 2 exW embedW id ["a.txt"] ⟨none, none⟩ = some (storeW, 1) ∧
    buildIndex 5 0 2 exW embedW id ["a.txt"] storeW = some (storeW, 1) :=
  ⟨buildW_eq,
    buildIndex_idempotent_C7 5 0 2 exW embedW id ["a.txt"] ⟨none, none⟩ storeW 1
      buildW_eq storeW⟩

/-- A prior committed index, different from the one the rebuild writes. -/
def oldStoreC2 : DiskStore Nat := ⟨some [3], some [⟨"old.txt", 0, 3⟩]⟩

/-- The store visible after the matrix write but before the metadata write. -/
def midStoreC2 : DiskStore Nat := ⟨some [5], some [⟨"old.txt", 0, 3⟩]⟩

/-- The store after both writes of the rebuild complete. -/
def newStoreC2 : DiskStore Nat := ⟨some [5], some [⟨"a.txt", 0, 5⟩]⟩

/-- C2: the claim states that `build_index` writes the new pair to a
temporary location and publishes it atomically, so no intermediate state
exposes a torn index.  The source writes both files in place at their final
published paths, matrix first (app/rag.py line 149) and metadata second
(lines 150-152): rebuilding over the concrete one-file corpus from the prior
index `oldStoreC2` passes through the visible intermediate state
`midStoreC2`, which combines the new matrix with the old metadata and equals
neither the old index nor the new one — exactly the torn state the claim
rules out for a crash between the two writes. -/
theorem buildIndex_torn_write_C2 :
    buildIndexDiskStates 5 0 2 exW embedW id ["a.txt"] oldStoreC2 =
      some [oldStoreC2, midStoreC2, newStoreC2] ∧
    midStoreC2.embFile = newStoreC2.embFile ∧
    midStoreC2.metaFile = oldStoreC2.metaFile ∧
    midStoreC2 ≠ oldStoreC2 ∧ midStoreC2 ≠ newStoreC2 := by
  decide

/-! ### Retrieval (RAG.retrieve, app/rag.py lines 158-184)

Scores are modelled as exact rationals.  `np.argsort(-sims)` returns
indices ordering the scores descendingly; the library's default quicksort
leaves the relative order of equal scores unspecified, so the model fixes
one particular such ordering (a stable insertion sort) — every statement
proved below is insensitive to the order chosen among equal scores. -/

/-- Dot product of two rows (`self._emb @ qv`, app/rag.py line 163). -/
def dotQ (a b : List ℚ) : ℚ := (List.zipWith (fun x y => x * y) a b).sum

/-- Insert index `i` into an index list that is already ordered by
descending score, before the first index with a strictly smaller score. -/
def insertIdxDesc (sims : List ℚ) (i : Nat) : List Nat → List Nat
  | [] => [i]
  | j :: rest =>
    if sims.getD j 0 < sims.getD i 0 then i :: j :: rest
    else j :: insertIdxDesc sims i rest

/-- `np.argsort(-sims)` (app/rag.py line 165): indices `0..n-1` ordered by
descending score. -/
def argsortDesc (sims : List ℚ) : List Nat :=
  (List.range sims.length).foldl (fun acc i => insertIdxDesc sims i acc) []

theorem insertIdxDesc_length (sims : List ℚ) (i : Nat) :
    ∀ l : List Nat, (insertIdxDesc sims i l).length = l.length + 1
  | [] => rfl
  | j :: rest => by
    rw [insertIdxDesc]
    by_cases h : sims.getD j 0 < sims.getD i 0
    · rw [if_pos h]; simp
    · rw [if_neg h]; simp [insertIdxDesc_length sims i rest]

theorem mem_insertIdxDesc (sims : List ℚ) (i a : Nat) :
    ∀ l : List Nat, a ∈ insertIdxDesc sims i l ↔ a = i ∨ a ∈ l
  | [] => by simp [insertIdxDesc]
  | j :: rest => by
    rw [insertIdxDesc]
    by_cases h : sims.getD j 0 < sims.getD i 0
    · rw [if_pos h]; simp [List.mem_cons]
    · rw [if_neg h]
      simp [List.mem_cons, mem_insertIdxDesc sims i a rest]
      tauto

theorem foldl_insert_length (sims : List ℚ) :
    ∀ (l acc : List Nat),
      (l.foldl (fun a i => insertIdxDesc sims i a) acc).length = acc.length + l.length
  | [], _ => rfl
  | i :: l, acc => by
    rw [List.foldl_cons, foldl_insert_length sims l, insertIdxDesc_length]
    simp only [List.length_cons]
    omega

theorem mem_foldl_insert (sims : List ℚ) (a : Nat) :
    ∀ (l acc : List Nat),
      a ∈ l.foldl (fun ac i => insertIdxDesc sims i ac) acc ↔ a ∈ acc ∨ a ∈ l
  | [], _ => by simp
  | i :: l, acc => by
    rw [List.foldl_cons, mem_foldl_insert sims a l, mem_insertIdxDesc]
    simp; tauto

theorem argsortDesc_length (sims : List ℚ) : (argsortDesc sims).length = sims.length := by
  rw [argsortDesc, foldl_insert_length]
  simp

theorem mem_argsortDesc_lt (sims : List ℚ) (a : Nat) (h : a ∈ argsortDesc sims) :
    a < sims.length := by
  rw [argsortDesc, mem_foldl_insert] at h
  rcases h with h | h
  · simp at h
  · exact List.mem_range.mp h

/-- One element of the list `retrieve` returns (app/rag.py lines 177-183). -/
structure RResult where
  path : String
  chunk_id : Nat
  text : List Char
deriving DecidableEq, Repr

/-- The `for i in idxs` result loop as an all-or-nothing map: `none` when an
iteration raises (metadata index out of bounds) or never finishes (the
re-chunking of a file stalls). -/
def optMap {α β : Type} (f : α → Option β) : List α → Option (List β)
  | [] => some []
  | x :: xs =>
    match f x with
    | none => none
    | some y =>
      match optMap f xs with
      | none => none
      | some ys => some (y :: ys)

theorem optMap_length {α β : Type} (f : α → Option β) :
    ∀ (xs : List α) (ys : List β), optMap f xs = some ys → ys.length = xs.length
  | [], ys, h => by simp only [optMap, Option.some.injEq] at h; subst h; rfl
  | x :: xs, ys, h => by
    rw [optMap] at h
    cases hfx : f x with
    | none => simp [hfx] at h
    | some y =>
      simp only [hfx] at h
      cases hxs : optMap f xs with
      | none => simp [hxs] at h
      | some ys0 =>
        simp only [hxs, Option.some.injEq] at h
        subst h
        simp [optMap_length f xs ys0 hxs]

theorem optMap_mem {α β : Type} (f : α → Option β) :
    ∀ (xs : List α) (ys : List β), optMap f xs = some ys →
      ∀ y ∈ ys, ∃ x ∈ xs, f x = some y
  | [], ys, h => by
    simp only [optMap, Option.some.injEq] at h; subst h; simp
  | x :: xs, ys, h => by
    rw [optMap] at h
    cases hfx : f x with
    | none => simp [hfx] at h
    | some y0 =>
      simp only [hfx] at h
      cases hxs : optMap f xs with
      | none => simp [hxs] at h
      | some ys0 =>
        simp only [hxs, Option.some.injEq] at h
        subst h
        intro y hy
        rcases List.mem_cons.mp hy with rfl | hy0
        · exact ⟨x, List.mem_cons_self x xs, hfx⟩
        · obtain ⟨x0, hx0, hfx0⟩ := optMap_mem f xs ys0 hxs y hy0
          exact ⟨x0, List.mem_cons_of_mem x hx0, hfx0⟩

theorem optMap_total {α β : Type} (f : α → Option β) :
    ∀ xs : List α, (∀ x ∈ xs, ∃ y, f x = some y) → ∃ ys, optMap f xs = some ys
  | [], _ => ⟨[], rfl⟩
  | x :: xs, h => by
    obtain ⟨y, hy⟩ := h x (List.mem_cons_self x xs)
    obtain ⟨ys, hys⟩ := optMap_total f xs (fun x0 hx0 => h x0 (List.mem_cons_of_mem x hx0))
    exact ⟨y :: ys, by rw [optMap, hy, hys]⟩

/-- The body of the result loop (app/rag.py lines 169-183): look up metadata
entry `i` (raises `IndexError` when out of bounds), re-extract the owning
file (`extract_text` may raise) and re-chunk it (`chunk_text` may stall),
then take the chunk at the recorded ordinal, or the empty string when the
ordinal is out of range of the freshly computed chunk list. -/
def materializeResult (cc ov fuel : Nat) (ex : String → Except Unit (List Char))
    (M : List MetaEntry) (i : Nat) : Option RResult :=
  match M[i]? with
  | none => none
  | some m =>
    match ex m.path with
    | Except.error _ => none
    | Except.ok txt =>
      match chunkTextF cc ov fuel txt with
      | none => none
      | some parts => some ⟨m.path, m.chunk_id, parts.getD m.chunk_id []⟩

/-- `RAG.retrieve` (app/rag.py lines 158-184).  `emb`/`meta` are the
in-memory index (`None` when absent), `qnorm` the query normalization of
lines 161-162, `k` the requested result count (`k` is a Python int, so it is
modelled as `Int`).  `some results` is a normal return; `none` means the
call raised or never finished. -/
def retrieve (cc ov fuel : Nat) (ex : String → Except Unit (List Char))
    (qnorm : List ℚ → List ℚ)
    (emb : Option (List (List ℚ))) (meta : Option (List MetaEntry))
    (qv : List ℚ) (k : Int) : Option (List RResult) :=
  match emb, meta with
  | some E, some M =>
    if M.length = 0 then some []
    else
      let sims := E.map (fun row => dotQ row (qnorm qv))
      let topk : Nat := (max 1 (min k (sims.length : Int))).toNat
      let idxs := (argsortDesc sims).take topk
      optMap (materializeResult cc ov fuel ex M) idxs
  | _, _ => some []

theorem materializeResult_total (cc ov fuel : Nat) (ex : String → Except Unit (List Char))
    (M : List MetaEntry)
    (hmat : ∀ m ∈ M, ∃ txt parts, ex m.path = Except.ok txt ∧
      chunkTextF cc ov fuel txt = some parts)
    (i : Nat) (hi : i < M.length) :
    ∃ r, materializeResult cc ov fuel ex M i = some r := by
  have hMi : M[i]? = some M[i] := List.getElem?_eq_getElem hi
  obtain ⟨txt, parts, hex, hct⟩ := hmat M[i] (List.getElem?_mem hMi)
  refine ⟨⟨M[i].path, M[i].chunk_id, parts.getD M[i].chunk_id []⟩, ?_⟩
  rw [materializeResult]
  simp only [hMi, hex, hct]

theorem materializeResult_spec (cc ov fuel : Nat) (ex : String → Except Unit (List Char))
    (M : List MetaEntry) (i : Nat) (r : RResult)
    (h : materializeResult cc ov fuel ex M i = some r) :
    ∃ m, M[i]? = some m ∧ r.path = m.path ∧ r.chunk_id = m.chunk_id ∧
      ∃ txt parts, ex m.path = Except.ok txt ∧
        chunkTextF cc ov fuel txt = some parts ∧
        r.text = parts.getD m.chunk_id [] := by
  rw [materializeResult] at h
  cases hMi : M[i]? with
  | none => simp [hMi] at h
  | some m =>
    simp only [hMi] at h
    cases hex : ex m.path with
    | error e => simp [hex] at h
    | ok txt =>
      simp only [hex] at h
      cases hct : chunkTextF cc ov fuel txt with
      | none => simp [hct] at h
      | some parts =>
        simp only [hct, Option.some.injEq] at h
        subst h
        exact ⟨m, rfl, rfl, rfl, txt, parts, hex, hct, rfl⟩

theorem retrieve_eq_optMap (cc ov fuel : Nat) (ex : String → Except Unit (List Char))
    (qnorm : List ℚ → List ℚ) (E : List (List ℚ)) (M : List MetaEntry)
    (qv : List ℚ) (k : Int) (hM : M.length ≠ 0) :
    retrieve cc ov fuel ex qnorm (some E) (some M) qv k =
      optMap (materializeResult cc ov fuel ex M)
        ((argsortDesc (E.map (fun row => dotQ row (qnorm qv)))).take
          (max 1 (min k ((E.map (fun row => dotQ row (qnorm qv))).length : Int))).toNat) := by
  rw [retrieve, if_neg hM]

/-- C5: for a loaded, aligned index and any integer `k`, `retrieve` returns
an empty list (not an error) when the index is absent or has zero rows, and
otherwise returns normally with exactly `min(max(k,1), row_count)` results —
in particular exactly `row_count` results when `k` exceeds the row count.
`hmat` asks that re-extracting and re-chunking each indexed file at query
time completes, which the result loop needs in order to return at all. -/
theorem retrieve_count_C5 (cc ov fuel : Nat) (ex : String → Except Unit (List Char))
    (qnorm : List ℚ → List ℚ) (E : List (List ℚ)) (M : List MetaEntry)
    (qv : List ℚ) (k : Int)
    (halign : E.length = M.length)
    (hmat : ∀ m ∈ M, ∃ txt parts, ex m.path = Except.ok txt ∧
      chunkTextF cc ov fuel txt = some parts) :
    (∀ (eo : Option (List (List ℚ))) (mo : Option (List MetaEntry)),
        eo = none ∨ mo = none →
        retrieve cc ov fuel ex qnorm eo mo qv k = some []) ∧
    ∃ rs, retrieve cc ov fuel ex qnorm (some E) (some M) qv k = some rs ∧
      (rs.length : Int) = min (max k 1) (M.length : Int) := by
  constructor
  · intro eo mo h
    rcases h with rfl | rfl
    · cases mo <;> rfl
    · cases eo <;> rfl
  · by_cases hM : M.length = 0
    · refine ⟨[], by rw [retrieve, if_pos hM], ?_⟩
      rw [hM]
      have h1 : (0 : Int) ≤ max k 1 := le_trans zero_le_one (le_max_right k 1)
      simp [min_eq_right h1]
    · have hn : 0 < M.length := Nat.pos_of_ne_zero hM
      set sims := E.map (fun row => dotQ row (qnorm qv)) with hsims
      have hsl : sims.length = M.length := by rw [hsims, List.length_map, halign]
      have hN1 : (1 : Int) ≤ (sims.length : Int) := by rw [hsl]; exact_mod_cast hn
      have htople : (max 1 (min k (sims.length : Int))).toNat ≤ sims.length := by
        have hle : max 1 (min k (sims.length : Int)) ≤ (sims.length : Int) :=
          max_le hN1 (min_le_right _ _)
        omega
      have hidxs_len :
          ((argsortDesc sims).take (max 1 (min k (sims.length : Int))).toNat).length =
            (max 1 (min k (sims.length : Int))).toNat := by
        rw [List.length_take, argsortDesc_length, min_eq_left htople]
      have htot : ∀ i ∈ (argsortDesc sims).take (max 1 (min k (sims.length : Int))).toNat,
          ∃ r, materializeResult cc ov fuel ex M i = some r := by
        intro i hi
        have hilt : i < M.length := by
          have := mem_argsortDesc_lt sims i (List.take_subset _ _ hi)
          rwa [hsl] at this
        exact materializeResult_total cc ov fuel ex M hmat i hilt
      obtain ⟨rs, hrs⟩ := optMap_total _ _ htot
      refine ⟨rs, ?_, ?_⟩
      · rw [retrieve_eq_optMap cc ov fuel ex qnorm E M qv k hM]
        exact hrs
      · have hlen : rs.length = (max 1 (min k (sims.length : Int))).toNat := by
          rw [optMap_length _ _ _ hrs, hidxs_len]
        rw [hlen, ← hsl]
        have h0 : (0 : Int) ≤ max 1 (min k (sims.length : Int)) :=
          le_trans zero_le_one (le_max_left _ _)
        rw [Int.toNat_of_nonneg h0]
        omega

/-- C10: when a result's recorded `chunk_id` falls outside the chunk list
obtained by re-extracting and re-chunking the owning file at query time (the
file shrank, changed, or now extracts to empty text), `retrieve` still
returns that result with its `path` and `chunk_id` and the empty string as
its text, raising no out-of-range error: the source guards the lookup with
`if m["chunk_id"] < len(parts) else ""` (app/rag.py lines 174-176). -/
theorem retrieve_stale_chunk_C10 (cc ov fuel : Nat) (ex : String → Except Unit (List Char))
    (qnorm : List ℚ → List ℚ) (E : List (List ℚ)) (M : List MetaEntry)
    (qv : List ℚ) (k : Int)
    (halign : E.length = M.length)
    (hmat : ∀ m ∈ M, ∃ txt parts, ex m.path = Except.ok txt ∧
      chunkTextF cc ov fuel txt = some parts) :
    ∃ rs, retrieve cc ov fuel ex qnorm (some E) (some M) qv k = some rs ∧
      ∀ r ∈ rs, ∃ m, m ∈ M ∧ r.path = m.path ∧ r.chunk_id = m.chunk_id ∧
        ∀ txt parts, ex m.path = Except.ok txt →
          chunkTextF cc ov fuel txt = some parts →
          parts.length ≤ m.chunk_id → r.text = [] := by
  by_cases hM : M.length = 0
  · exact ⟨[], by rw [retrieve, if_pos hM], fun r hr => absurd hr (by simp)⟩
  · set sims := E.map (fun row => dotQ row (qnorm qv)) with hsims
    have hsl : sims.length = M.length := by rw [hsims, List.length_map, halign]
    have htot : ∀ i ∈ (argsortDesc sims).take (max 1 (min k (sims.length : Int))).toNat,
        ∃ r, materializeResult cc ov fuel ex M i = some r := by
      intro i hi
      have hilt : i < M.length := by
        have := mem_argsortDesc_lt sims i (List.take_subset _ _ hi)
        rwa [hsl] at this
      exact materializeResult_total cc ov fuel ex M hmat i hilt
    obtain ⟨rs, hrs⟩ := optMap_total _ _ htot
    refine ⟨rs, ?_, ?_⟩
    · rw [retrieve_eq_optMap cc ov fuel ex qnorm E M qv k hM]
      exact hrs
    · intro r hr
      obtain ⟨i, _, hmi⟩ := optMap_mem _ _ _ hrs r hr
      obtain ⟨m, hMi, hpath, hcid, txt0, parts0, hex0, hct0, htext⟩ :=
        materializeResult_spec cc ov fuel ex M i r hmi
      refine ⟨m, List.getElem?_mem hMi, hpath, hcid, ?_⟩
      intro txt parts hex hct hlen
      have htxt : txt = txt0 := by
        have := hex0.symm.trans hex
        exact (Except.ok.inj this).symm
      subst htxt
      have hparts : parts = parts0 := by
        have := hct0.symm.trans hct
        exact (Option.some.inj this).symm
      subst hparts
      rw [htext, List.getD_eq_default]
      exact hlen

/-- Concrete query-time file system for the retrieval witnesses: every file
now extracts to the empty string (so every recorded ordinal is stale). -/
def exEmpty : String → Except Unit (List Char) := fun _ => Except.ok []

/-- Concrete loaded index for the C5 witness: one row, one metadata entry. -/
def metaW5 : List MetaEntry := [⟨"a.txt", 0, 5⟩]

theorem exEmpty_chunks : ∀ m ∈ metaW5, ∃ txt parts,
    exEmpty m.path = Except.ok txt ∧ chunkTextF 5 0 1 txt = some parts :=
  fun _ _ => ⟨[], [], rfl, rfl⟩

/-- Witness for C5: `k = 7` against a one-row index returns exactly
`min(max(7,1), 1) = 1` result, and an absent index returns `[]`. -/
theorem retrieve_count_C5_witness :
    ([[(1 : ℚ)]].length = metaW5.length) ∧
    ((∀ (eo : Option (List (List ℚ))) (mo : Option (List MetaEntry)),
        eo = none ∨ mo = none →
        retrieve 5 0 1 exEmpty id eo mo [1] 7 = some []) ∧
      ∃ rs, retrieve 5 0 1 exEmpty id (some [[(1 : ℚ)]]) (some metaW5) [1] 7 = some rs ∧
        (rs.length : Int) = min (max 7 1) (metaW5.length : Int)) :=
  ⟨rfl, retrieve_count_C5 5 0 1 exEmpty id [[(1 : ℚ)]] metaW5 [1] 7 rfl exEmpty_chunks⟩

/-- Concrete loaded index for the C10 witness: the single metadata entry
records ordinal 3, but the file now extracts to empty text, so the
re-computed chunk list is empty and the ordinal is out of range. -/
def metaW10 : List MetaEntry := [⟨"gone.txt", 3, 7⟩]

theorem exEmpty_chunks10 : ∀ m ∈ metaW10, ∃ txt parts,
    exEmpty m.path = Except.ok txt ∧ chunkTextF 5 0 1 txt = some parts :=
  fun _ _ => ⟨[], [], rfl, rfl⟩

/-- Witness for C10: the stale result comes back with its recorded path and
ordinal and the empty string as text. -/
theorem retrieve_stale_chunk_C10_witness :
    ([[(1 : ℚ)]].length = metaW10.length) ∧
    ∃ rs, retrieve 5 0 1 exEmpty id (some [[(1 : ℚ)]]) (some metaW10) [1] 1 = some rs ∧
      ∀ r ∈ rs, ∃ m, m ∈ metaW10 ∧ r.path = m.path ∧ r.chunk_id = m.chunk_id ∧
        ∀ txt parts, exEmpty m.path = Except.ok txt →
          chunkTextF 5 0 1 txt = some parts →
          parts.length ≤ m.chunk_id → r.text = [] :=
  ⟨rfl, retrieve_stale_chunk_C10 5 0 1 exEmpty id [[(1 : ℚ)]] metaW10 [1] 1 rfl
    exEmpty_chunks10⟩

/-! ### Text extraction (extract_text / read_text_file, app/rag.py lines 25-57) -/

/-- Python `s.endswith(suf)` on character lists. -/
def endsWithL (s suf : String) : Bool := List.isSuffixOf suf.data s.data

/-- Python `str.lower()`. -/
def pyLower (s : String) : String := ⟨s.data.map Char.toLower⟩

/-- `read_text_file` (app/rag.py lines 25-32).  `fs path` is the raw byte
content of the file, `none` when `open()` raises (missing or unreadable
file); that exception propagates to the caller.  `decode` is the
chardet-detect-then-decode step with `errors="ignore"` plus its own broad
`except` fallback, which together never raise, so it is a total function. -/
def read_text_file (fs : String → Option (List Nat)) (decode : List Nat → List Char)
    (path : String) : Except Unit (List Char) :=
  match fs path with
  | none => Except.error ()
  | some raw => Except.ok (decode raw)

/-- `extract_text` (app/rag.py lines 35-57): dispatch on the lowercased
path suffix.  `pdfX`/`docxX` are the third-party parsers, `none` when they
raise; both of those branches are wrapped in `try/except` returning `""`
(and `docx2txt.process(...) or ""` maps a `None` result to `""`), so they
never propagate an error.  The `.md` and `.txt` branches call
`read_text_file` with no exception handler, so an unreadable file
propagates the `open()` error outward.  Unknown extensions yield `""`. -/
def extract_text (pdfX docxX : String → Option (List Char))
    (mdRender : List Char → List Char)
    (fs : String → Option (List Nat)) (decode : List Nat → List Char)
    (path : String) : Except Unit (List Char) :=
  let p := pyLower path
  if endsWithL p ".pdf" then Except.ok ((pdfX path).getD [])
  else if endsWithL p ".docx" then Except.ok ((docxX path).getD [])
  else if endsWithL p ".md" then
    match read_text_file fs decode path with
    | Except.error e => Except.error e
    | Except.ok txt => Except.ok (mdRender txt)
  else if endsWithL p ".txt" then read_text_file fs decode path
  else Except.ok []

/-- A file system on which every `open()` raises (e.g. permission denied). -/
def fsUnreadable : String → Option (List Nat) := fun _ => none

/-- A decoder for the witness inputs (never consulted when `open()` fails). -/
def decodeC8 : List Nat → List Char := fun _ => []

/-- Parsers that raise on every file (corrupt documents). -/
def parserFail : String → Option (List Char) := fun _ => none

/-- C8: the claim states that `extract_text` never raises outward for any
path, degrading unreadable or corrupt files of any supported extension to
the empty string.  The source only guards the `.pdf` and `.docx` branches
with `try/except` (app/rag.py lines 38-49); the `.txt` and `.md` branches
call `read_text_file`, whose `open()` error propagates out of
`extract_text` (lines 25-27, 50-56).  On a file system where `open()`
raises, a `.txt` or `.md` path raises outward while a corrupt `.pdf` or
`.docx` degrades to the empty string and an unsupported extension yields
the empty string. -/
theorem extract_text_raises_C8 :
    extract_text parserFail parserFail id fsUnreadable decodeC8 "notes.txt" =
      Except.error () ∧
    extract_text parserFail parserFail id fsUnreadable decodeC8 "notes.md" =
      Except.error () ∧
    extract_text parserFail parserFail id fsUnreadable decodeC8 "broken.pdf" =
      Except.ok [] ∧
    extract_text parserFail parserFail id fsUnreadable decodeC8 "broken.docx" =
      Except.ok [] ∧
    extract_text parserFail parserFail id fsUnreadable decodeC8 "image.png" =
      Except.ok [] :=
  ⟨rfl, rfl, rfl, rfl, rfl⟩

/-! ### Change detection (FileSystemRAG.index_file, enhanced_buddy.py
lines 356-405)

The SQLite `files` table is modelled as a list of rows keyed by `path`;
`_get_file_hash`, `_extract_content_preview` and `_classify_file_type` are
function parameters (their values at each path). -/

/-- One row of the `files` table (enhanced_buddy.py lines 269-283). -/
structure FileRow where
  path : String
  name : String
  ext : String
  size : Nat
  modified : Nat
  content_hash : String
  content_preview : String
  file_type : String
deriving DecidableEq, Repr

/-- The stat information of the file currently on disk. -/
structure FsFile where
  path : String
  name : String
  ext : String
  size : Nat
  mtime : Nat
deriving DecidableEq, Repr

/-- Which work `index_file` performed during one call. -/
structure IndexActions where
  hashed : Bool
  extracted : Bool
  embedded : Bool
deriving DecidableEq, Repr

/-- `INSERT OR REPLACE INTO files` keyed by the `path` primary key
(enhanced_buddy.py lines 365-373). -/
def upsertRow (db : List FileRow) (r : FileRow) : List FileRow :=
  if db.any (fun q => q.path == r.path) then
    db.map (fun q => if q.path == r.path then r else q)
  else db ++ [r]

/-- `FileSystemRAG.index_file` (enhanced_buddy.py lines 356-394): stat the
file, compute its content hash, extract its content preview, classify it,
upsert the row, and re-embed the preview when the vector store is enabled
and the preview is non-empty.  The body never reads the stored row, so
every step runs unconditionally on every call. -/
def indexFile (hashF previewF classifyF : String → String) (vectorEnabled : Bool)
    (db : List FileRow) (f : FsFile) : List FileRow × IndexActions :=
  let h := hashF f.path
  let prev := previewF f.path
  let ft := classifyF f.path
  (upsertRow db ⟨f.path, f.name, f.ext, f.size, f.mtime, h, prev, ft⟩,
   ⟨true, true, vectorEnabled && (prev != "")⟩)

/-- Hash function of the unchanged file: the same value before and after. -/
def hashC4 : String → String := fun _ => "h1"

/-- Preview extraction for the C4 scenario. -/
def previewC4 : String → String := fun _ => "hello preview"

/-- File-type classification for the C4 scenario. -/
def classifyC4 : String → String := fun _ => "document"

/-- The table already holds `a.txt`, indexed at mtime 100 with hash "h1". -/
def dbC4 : List FileRow :=
  [⟨"a.txt", "a.txt", ".txt", 5, 100, "h1", "hello preview", "document"⟩]

/-- The same file on disk: content (hence hash) unchanged, mtime now 200. -/
def fC4 : FsFile := ⟨"a.txt", "a.txt", ".txt", 5, 200⟩

/-- C4: the claim states that a file whose content hash matches the
last-indexed hash is skipped — not re-extracted, not re-embedded.  The
source stores `content_hash` "for change detection" but never compares it:
`index_file` has no branch that reads the existing row, so it re-hashes,
re-extracts and re-embeds unconditionally (first conjunct: on every input),
and in particular on a file whose stored hash equals its current hash and
whose mtime changed (remaining conjuncts: the concrete touched-not-modified
file `fC4`). -/
theorem indexFile_no_hash_skip_C4 :
    (∀ (hashF previewF classifyF : String → String) (ve : Bool)
        (db : List FileRow) (f : FsFile),
        (indexFile hashF previewF classifyF ve db f).2.extracted = true ∧
        (indexFile hashF previewF classifyF ve db f).2.hashed = true) ∧
    ((dbC4.find? (fun q => q.path == fC4.path)).map (fun q => q.content_hash) =
        some (hashC4 fC4.path) ∧
      (dbC4.find? (fun q => q.path == fC4.path)).map (fun q => q.modified) =
        some 100 ∧
      fC4.mtime = 200 ∧
      (indexFile hashC4 previewC4 classifyC4 true dbC4 fC4).2.extracted = true ∧
      (indexFile hashC4 previewC4 classifyC4 true dbC4 fC4).2.embedded = true) :=
  ⟨fun _ _ _ _ _ _ => ⟨rfl, rfl⟩, by decide⟩

/-! ### Vector normalization (app/rag.py lines 98-102, 144-146, 161-162)

The floating-point arithmetic is idealized over the real numbers; the
`1e-12` regularizer added to each norm is kept exactly. -/

/-- The L2 norm `np.linalg.norm` of one row. -/
noncomputable def norm2 (v : List ℝ) : ℝ := Real.sqrt ((v.map (fun x => x ^ 2)).sum)

/-- The `1e-12` regularizer added to every norm before dividing. -/
noncomputable def eps12 : ℝ := 1 / 10 ^ 12

/-- The normalization applied to each row in `build_index` (lines 145-146),
to each row of a loaded matrix (lines 99-102) and to the query vector
(line 162): divide every component by `norm + 1e-12`. -/
noncomputable def pyNormalize (δ : ℝ) (v : List ℝ) : List ℝ :=
  v.map (fun x => x / (norm2 v + δ))

theorem sum_map_div (l : List ℝ) (c : ℝ) :
    (l.map (fun x => x / c)).sum = l.sum / c := by
  induction l with
  | nil => simp
  | cons x xs ih => simp [ih, add_div]

theorem sum_sq_nonneg (v : List ℝ) : 0 ≤ (v.map (fun x => x ^ 2)).sum := by
  apply List.sum_nonneg
  intro x hx
  obtain ⟨y, _, rfl⟩ := List.mem_map.mp hx
  positivity

theorem norm2_nonneg (v : List ℝ) : 0 ≤ norm2 v := Real.sqrt_nonneg _

/-- Scaling every component by `1 / c` scales the L2 norm by `1 / c`. -/
theorem norm2_map_div (v : List ℝ) (c : ℝ) (hc : 0 ≤ c) :
    norm2 (v.map (fun x => x / c)) = norm2 v / c := by
  unfold norm2
  rw [List.map_map]
  have h1 : ((fun x => x ^ 2) ∘ fun x => x / c) =
      (fun y => y / c ^ 2) ∘ (fun x => x ^ 2) := by
    funext x
    simp [div_pow]
  rw [h1, ← List.map_map, sum_map_div, Real.sqrt_div (sum_sq_nonneg v),
    Real.sqrt_sq hc]

/-- C9 (amended): every vector produced by the normalization steps from an
input of L2 norm at least 1/2 has L2 norm within `ε = 2·10⁻¹²` of 1.  (The
unamended claim fails on the all-zero vector, which normalizes to itself —
see the accompanying counterexample.) -/
theorem pyNormalize_unit_norm_C9 (v : List ℝ) (h : 1 / 2 ≤ norm2 v) :
    |norm2 (pyNormalize eps12 v) - 1| ≤ 2 / 10 ^ 12 := by
  have hN : (0:ℝ) < norm2 v := by linarith
  have he : (0:ℝ) < eps12 := by rw [eps12]; norm_num
  have hc : (0:ℝ) < norm2 v + eps12 := by linarith
  have hrw : norm2 (pyNormalize eps12 v) = norm2 v / (norm2 v + eps12) :=
    norm2_map_div v (norm2 v + eps12) hc.le
  rw [hrw]
  have h1 : norm2 v / (norm2 v + eps12) - 1 = -(eps12 / (norm2 v + eps12)) := by
    field_simp
  rw [h1, abs_neg, abs_of_nonneg (by positivity)]
  have h2 : eps12 / (norm2 v + eps12) ≤ eps12 / norm2 v := by
    gcongr
    linarith
  have h3 : eps12 / norm2 v ≤ eps12 / (1 / 2) := by
    gcongr
  have h4 : eps12 / (1 / 2) = 2 / 10 ^ 12 := by
    rw [eps12]
    norm_num
  linarith

/-- C9 (counterexample to the unamended claim): a zero row — which the
load-time normalization of `_load_index_if_exists` (app/rag.py lines
99-102) applies to whatever matrix is on disk, and which the build-time
normalization applies to any zero vector the embedding client returns — is
normalized to itself (each component is `0 / (0 + 1e-12) = 0`), and its L2
norm is 0, not within any reasonable tolerance of 1 (here: not within
1/2). -/
theorem pyNormalize_zero_vector_C9 :
    pyNormalize eps12 [0, 0] = [0, 0] ∧
    norm2 (pyNormalize eps12 [0, 0]) = 0 ∧
    ¬ |norm2 (pyNormalize eps12 [0, 0]) - 1| ≤ 1 / 2 := by
  have h1 : pyNormalize eps12 [0, 0] = [0, 0] := by
    simp [pyNormalize]
  have h2 : norm2 ([0, 0] : List ℝ) = 0 := by
    simp [norm2]
  refine ⟨h1, by rw [h1, h2], ?_⟩
  rw [h1, h2]
  norm_num

/-- Witness for C9 (amended): the unit vector `[1]` has norm 1 ≥ 1/2, and
its normalization has norm within `2·10⁻¹²` of 1. -/
theorem pyNormalize_unit_norm_C9_witness :
    1 / 2 ≤ norm2 [(1 : ℝ)] ∧
    |norm2 (pyNormalize eps12 [(1 : ℝ)]) - 1| ≤ 2 / 10 ^ 12 := by
  have h : norm2 [(1 : ℝ)] = 1 := by simp [norm2]
  exact ⟨by rw [h]; norm_num, pyNormalize_unit_norm_C9 [(1 : ℝ)] (by rw [h]; norm_num)⟩

/-- C3: the claim states that `chunk_text` terminates for every text, every
`chunk_chars > 0` and every `overlap ≥ 0` because the advance step is clamped
to at least 1.  The source has no such clamp (`i = j - overlap` is only
clamped below at 0, app/rag.py line 68-70), and the loop stalls: on
`text = "ab"`, `chunk_chars = 5`, `overlap = 2` (which satisfies all of the
claim's constraints, with `overlap < chunk_chars` even), the loop never
finishes for any amount of fuel, i.e. `chunk_text` runs forever. -/
theorem chunkText_nontermination_C3 :
    (0 < 5 ∧ 0 ≤ 2) ∧ ∀ fuel, chunkTextF 5 2 fuel "ab".toList = none := by
  refine ⟨by decide, fun fuel => ?_⟩
  unfold chunkTextF
  rw [chunkLoop_ab_stalls fuel []]
  rfl
